import Mathlib

/-!
Verification of the utility-class generation engine described by the
repository's specification.  The repository itself ships only the
configuration surface (`src/tailwind.config.js`); the engine components
(Theme Resolver, Content Scanner, Candidate Extractor, Utility Registry,
Variant Resolver, Incremental Cache, CSS Emitter) are modelled from the
specification and verified against its stated properties.
-/

namespace Nogistocks

/-! ## Theme tables -/

/-- Modelled from the spec: a `ThemeTable` maps `(category, token-name)`
pairs to values; represented as an association list. -/
abbrev ThemeTable : Type := List ((String × String) × String)

/-- Modelled from the spec: look a key up in a theme table (first match). -/
def themeLookup (t : ThemeTable) (k : String × String) : Option String :=
  (t.find? (fun e => e.1 = k)).map (·.2)

/-- Modelled from the spec (Theme Resolver, missing from `src/`): merge a
base theme with an extension, the extension's entries overriding base
entries with identical keys, every other base entry surviving unmodified. -/
def resolveTheme (base ext : ThemeTable) : ThemeTable :=
  ext ++ base.filter (fun e => !(ext.any (fun x => x.1 = e.1)))

/-- Modelled from the spec: basic shape check on token values; a token
whose value is the empty string is malformed and raises `ConfigError`. -/
def validateTheme (t : ThemeTable) : Bool :=
  t.all (fun e => !(e.2 = ""))

/-- Modelled from the spec: the base design-token theme (spec §8 example
tokens). -/
def baseTheme : ThemeTable :=
  [(("spacing", "4"), "1rem"),
   (("spacing", "2"), "0.5rem"),
   (("colors", "white"), "white"),
   (("colors", "red-500"), "#ef4444")]

/-! ## Configuration (from `src/tailwind.config.js`) -/

/-- Dark-mode strategy: class-based ancestor-marker rewrite versus
preference-based media wrap (spec §6). -/
inductive DarkModeStrategy where
  | byClass
  | byMedia
deriving DecidableEq, Repr

/-- Engine configuration: content glob patterns, engine-wide dark-mode
strategy, theme extension table. -/
structure Config where
  content : List String
  darkMode : DarkModeStrategy
  themeExtend : ThemeTable

/-- The repository's configuration, embedded from `src/tailwind.config.js`:
`content: ["./src/**/*.{js,jsx,ts,tsx}"]`, `darkMode: 'class'`,
`theme.extend: {}`. -/
def repoConfig : Config where
  content := ["./src/**/*.\x7bjs,jsx,ts,tsx\x7d"]
  darkMode := .byClass
  themeExtend := []

/-! ## Candidates and variants -/

/-- Modelled from the spec: split a candidate string on the `:` delimiter
into its variant-prefix chain (all segments but the last, left to right)
and its base utility name (the last segment). -/
def parseCandidate (c : String) : List String × String :=
  let parts := (c.toList.splitOn ':').map (fun l => String.mk l)
  (parts.dropLast, parts.getLastD "")

/-- Selector shapes produced by the Variant Resolver: a base class
selector, a pseudo-class applied to an inner selector, an ancestor-marker
rewrite, or a media-condition wrap. -/
inductive Sel where
  | base (cls : String)
  | pseudo (inner : Sel) (name : String)
  | ancestor (marker : String) (inner : Sel)
  | media (cond : String) (inner : Sel)
deriving DecidableEq, Repr

/-- Modelled from the spec (Variant Resolver): a single variant either
rewrites the selector or wraps the rule; `dark` resolves according to the
engine-wide strategy; an unknown variant identifier drops the candidate. -/
def applyVariant (strategy : DarkModeStrategy) (v : String) (s : Sel) : Option Sel :=
  if v = "hover" then some (.pseudo s "hover")
  else if v = "focus" then some (.pseudo s "focus")
  else if v = "dark" then
    match strategy with
    | .byClass => some (.ancestor "dark" s)
    | .byMedia => some (.media "prefers-color-scheme: dark" s)
  else none

/-- Modelled from the spec (Variant Resolver `apply`): process the chain
left to right, the leftmost prefix becoming the outermost rewrite, so
chain order determines nesting order. -/
def applyChain (strategy : DarkModeStrategy) : List String → Sel → Option Sel
  | [], s => some s
  | v :: vs, s => (applyChain strategy vs s).bind (applyVariant strategy v)

/-- Modelled from the spec: escape the characters of a candidate string
that are not CSS-class-name safe. -/
def escapeChar (c : Char) : List Char :=
  if c ∈ [':', '[', ']', '.', '%', '/'] then ['\\', c] else [c]

/-- Modelled from the spec: escaped class-selector text of a candidate. -/
def escapeClass (s : String) : String :=
  String.mk (s.toList.flatMap escapeChar)

/-- Render a structured selector to CSS selector text. -/
def renderSel : Sel → String
  | .base c => "." ++ c
  | .pseudo s n => renderSel s ++ ":" ++ n
  | .ancestor m s => "." ++ m ++ " " ++ renderSel s
  | .media cond s => "@media (" ++ cond ++ ") \x7b " ++ renderSel s ++ " \x7d"

/-! ## Utility registry -/

/-- Modelled from the spec: arbitrary-value suffix grammar for lengths:
nonempty, leading digit, characters drawn from digits, units and dot. -/
def validLength (v : List Char) : Bool :=
  match v with
  | [] => false
  | c :: _ =>
      c.isDigit &&
      v.all (fun d => d.isDigit || d ∈ ['p', 'x', 'r', 'e', 'm', 'c', 'h', 'v', 'w', '%', '.'])

/-- Modelled from the spec (Utility Registry `lookup`): resolve a base
utility name to its sort-key category rank and declaration text, static
theme entries taking priority over the dynamic arbitrary-value form;
invalid arbitrary-value suffixes and unknown names yield `none`. -/
def lookupUtility (theme : ThemeTable) (b : String) : Option (Nat × String) :=
  let bs := b.toList
  if ("p-".toList).isPrefixOf bs then
    let rest := bs.drop 2
    match themeLookup theme ("spacing", String.mk rest) with
    | some v => some (0, "padding: " ++ v)
    | none =>
        match rest with
        | '[' :: more =>
            if more.getLast? = some ']' && validLength more.dropLast then
              some (0, "padding: " ++ String.mk more.dropLast)
            else none
        | _ => none
  else if ("text-".toList).isPrefixOf bs then
    match themeLookup theme ("colors", String.mk (bs.drop 5)) with
    | some v => some (1, "color: " ++ v)
    | none => none
  else none

/-! ## Rules -/

/-- A resolved rule: sort-key fields (utility category rank, variant-chain
length, candidate string) plus the final selector and declaration text. -/
structure Rule where
  category : Nat
  chainLen : Nat
  candidate : String
  selector : String
  decls : String
deriving DecidableEq, Repr

/-- Modelled from the spec: structured selector of a candidate, obtained
by applying its variant chain to its escaped base class selector. -/
def resolveSel (strategy : DarkModeStrategy) (c : String) : Option Sel :=
  applyChain strategy (parseCandidate c).1 (Sel.base (escapeClass c))

/-- Modelled from the spec: resolve a candidate to a rule, dropping it when
its base utility is unknown, its arbitrary value is invalid, or its chain
names an unknown variant. -/
def resolveCandidate (theme : ThemeTable) (strategy : DarkModeStrategy)
    (c : String) : Option Rule :=
  match lookupUtility theme (parseCandidate c).2, resolveSel strategy c with
  | some (cat, decls), some sel =>
      some ⟨cat, (parseCandidate c).1.length, c, renderSel sel, decls⟩
  | _, _ => none

/-! ## CSS Emitter -/

/-- Full comparison key of a rule: the stable sort key (category rank,
variant-chain length tier, candidate string) extended lexicographically by
the remaining fields so that distinct rules always compare differently. -/
def ruleKey (r : Rule) : Nat ×ₗ (Nat ×ₗ (String ×ₗ (String ×ₗ String))) :=
  toLex (r.category, toLex (r.chainLen, toLex (r.candidate, toLex (r.selector, r.decls))))

/-- The spec's stable sort key alone: utility category rank, then the
specificity tier implied by variant-chain length, then the candidate
string in lexical order. -/
def specSortKey (r : Rule) : Nat ×ₗ (Nat ×ₗ String) :=
  toLex (r.category, toLex (r.chainLen, r.candidate))

/-- Total order on rules used by the emitter. -/
def ruleLE (a b : Rule) : Prop :=
  ruleKey a ≤ ruleKey b

instance : DecidableRel ruleLE :=
  fun a b => inferInstanceAs (Decidable (ruleKey a ≤ ruleKey b))

theorem ruleKey_inj {a b : Rule} (h : ruleKey a = ruleKey b) : a = b := by
  cases a
  cases b
  simp only [ruleKey, toLex_inj, Prod.mk.injEq] at h
  simp_all

instance : IsTrans Rule ruleLE :=
  ⟨fun _ _ _ hab hbc => le_trans hab hbc⟩

instance : IsTotal Rule ruleLE :=
  ⟨fun a b => le_total (ruleKey a) (ruleKey b)⟩

instance : IsAntisymm Rule ruleLE :=
  ⟨fun _ _ h h' => ruleKey_inj (le_antisymm h h')⟩

/-- Emitter ordering pass: sort the discovered rules by the total order. -/
def sortRules (rs : List Rule) : List Rule :=
  rs.insertionSort ruleLE

/-- The selector+declaration pair of a rule, the emitter's dedup key. -/
def pairOf (r : Rule) : String × String :=
  (r.selector, r.decls)

/-- Emitter dedup pass: keep the first rule carrying each
selector+declaration pair, skipping pairs already seen. -/
def dedupPairAux (seen : List (String × String)) : List Rule → List Rule
  | [] => []
  | a :: l =>
      if pairOf a ∈ seen then dedupPairAux seen l
      else a :: dedupPairAux (pairOf a :: seen) l

/-- Emitter dedup pass over the whole rule list. -/
def dedupPair (rs : List Rule) : List Rule :=
  dedupPairAux [] rs

/-- The rule list the emitter serializes: sorted, then deduplicated by
selector+declaration pair. -/
def emittedRules (rs : List Rule) : List Rule :=
  dedupPair (sortRules rs)

/-- Render one rule as CSS text. -/
def renderRule (r : Rule) : String :=
  r.selector ++ " \x7b " ++ r.decls ++ " \x7d"

/-- Modelled from the spec (CSS Emitter `emit`): dedupe, order by the
stable sort key, serialize. -/
def emit (rs : List Rule) : String :=
  String.intercalate "\n" ((emittedRules rs).map renderRule)

theorem sortRules_eq_of_perm {rs₁ rs₂ : List Rule} (h : rs₁.Perm rs₂) :
    sortRules rs₁ = sortRules rs₂ :=
  List.eq_of_perm_of_sorted
    (((List.perm_insertionSort ruleLE rs₁).trans h).trans
      (List.perm_insertionSort ruleLE rs₂).symm)
    (List.sorted_insertionSort ruleLE rs₁)
    (List.sorted_insertionSort ruleLE rs₂)

theorem emit_eq_of_perm {rs₁ rs₂ : List Rule} (h : rs₁.Perm rs₂) :
    emit rs₁ = emit rs₂ := by
  unfold emit emittedRules
  rw [sortRules_eq_of_perm h]

theorem dedupPairAux_sublist (seen : List (String × String)) :
    ∀ rs : List Rule, (dedupPairAux seen rs).Sublist rs
  | [] => List.Sublist.refl _
  | a :: l => by
    unfold dedupPairAux
    by_cases h : pairOf a ∈ seen
    · simp only [h, if_true]
      exact (dedupPairAux_sublist seen l).cons a
    · simp only [h, if_false]
      exact (dedupPairAux_sublist (pairOf a :: seen) l).cons₂ a

theorem mem_dedupPairAux_not_seen {seen : List (String × String)} :
    ∀ {rs : List Rule} {x : Rule}, x ∈ dedupPairAux seen rs → pairOf x ∉ seen := by
  intro rs
  induction rs generalizing seen with
  | nil => intro x hx; simp [dedupPairAux] at hx
  | cons a l ih =>
    intro x hx
    unfold dedupPairAux at hx
    by_cases h : pairOf a ∈ seen
    · simp only [h, if_true] at hx
      exact ih hx
    · simp only [h, if_false, List.mem_cons] at hx
      rcases hx with rfl | hx
      · exact h
      · have := ih hx
        intro hs
        exact this (List.mem_cons_of_mem _ hs)

theorem pairwise_dedupPairAux (seen : List (String × String)) :
    ∀ rs : List Rule,
      (dedupPairAux seen rs).Pairwise (fun a b => pairOf a ≠ pairOf b)
  | [] => List.Pairwise.nil
  | a :: l => by
    unfold dedupPairAux
    by_cases h : pairOf a ∈ seen
    · simp only [h, if_true]
      exact pairwise_dedupPairAux seen l
    · simp only [h, if_false]
      refine List.Pairwise.cons ?_ (pairwise_dedupPairAux _ l)
      intro b hb hpair
      exact mem_dedupPairAux_not_seen hb (hpair ▸ List.mem_cons_self _ _)

/-- Sortedness of the full order implies sortedness of the spec's
truncated sort key. -/
theorem specSortKey_le_of_ruleLE {a b : Rule} (h : ruleLE a b) :
    specSortKey a ≤ specSortKey b := by
  unfold ruleLE ruleKey at h
  unfold specSortKey
  rw [Prod.Lex.le_iff] at h ⊢
  rcases h with h | ⟨hc, h⟩
  · exact Or.inl h
  · refine Or.inr ⟨hc, ?_⟩
    rw [Prod.Lex.le_iff] at h ⊢
    rcases h with h | ⟨hl, h⟩
    · exact Or.inl h
    · refine Or.inr ⟨hl, ?_⟩
      rw [Prod.Lex.le_iff] at h
      rcases h with h | ⟨hcand, _⟩
      · exact le_of_lt h
      · exact le_of_eq hcand

theorem emittedRules_sorted (rs : List Rule) :
    (emittedRules rs).Sorted (fun a b => specSortKey a ≤ specSortKey b) := by
  have hsorted : (sortRules rs).Sorted ruleLE := List.sorted_insertionSort ruleLE rs
  have hsub : (emittedRules rs).Sublist (sortRules rs) := dedupPairAux_sublist [] _
  exact (hsorted.sublist hsub).imp (fun h => specSortKey_le_of_ruleLE h)

theorem emittedRules_pairwise (rs : List Rule) :
    (emittedRules rs).Pairwise (fun a b => pairOf a ≠ pairOf b) :=
  pairwise_dedupPairAux [] _

/-! ## Content Scanner -/

/-- A file in the working tree: a path plus its byte content, `none`
standing for an unreadable file (or an unresolvable symlink cycle). -/
structure FileEntry where
  path : String
  content : Option String
deriving DecidableEq, Repr

/-- Modelled from the spec: fuel-bounded glob matching step, `*` matching
any (possibly empty) run of characters and every other pattern character
matching itself. -/
def globMatchFuel : Nat → List Char → List Char → Bool
  | 0, _, _ => false
  | _ + 1, [], [] => true
  | fuel + 1, '*' :: ps, [] => globMatchFuel fuel ps []
  | fuel + 1, '*' :: ps, c :: cs =>
      globMatchFuel fuel ps (c :: cs) || globMatchFuel fuel ('*' :: ps) cs
  | _ + 1, _ :: _, [] => false
  | _ + 1, [], _ :: _ => false
  | fuel + 1, p :: ps, c :: cs => (p = c) && globMatchFuel fuel ps cs

/-- Modelled from the spec: whether a path matches one glob pattern. -/
def globMatch (pattern path : String) : Bool :=
  globMatchFuel (pattern.toList.length + path.toList.length + 1)
    pattern.toList path.toList

/-- Modelled from the spec (Content Scanner `scan`): the files of the
working tree matched by at least one pattern; each tree entry is kept at
most once however many patterns match it. -/
def scanFiles (patterns : List String) (tree : List FileEntry) : List FileEntry :=
  tree.filter (fun f => patterns.any (fun p => globMatch p f.path))

/-! ## Candidate Extractor -/

/-- Modelled from the spec: the allowed class-name alphabet; everything
else is a word-boundary separator. -/
def allowedChar (c : Char) : Bool :=
  c.isAlphanum || c ∈ ['-', ':', '/', '[', ']', '%', '.', '_']

/-- Modelled from the spec: best-effort lexical tokenizer — every maximal
run of allowed characters becomes one candidate, separators are skipped,
and no input can make it fail. -/
def tokenize : List Char → List Char → List String
  | [], acc => if acc.isEmpty then [] else [String.mk acc.reverse]
  | c :: cs, acc =>
      if allowedChar c then tokenize cs (c :: acc)
      else if acc.isEmpty then tokenize cs []
      else String.mk acc.reverse :: tokenize cs []

/-- Modelled from the spec (Candidate Extractor `extract`): candidates of
a byte content, a pure total function of the bytes. -/
def extract (s : String) : List String :=
  tokenize s.toList []

/-- Per-file extraction: ignores the path, depending on content only. -/
def extractFile (f : String × String) : List String :=
  extract f.2

/-! ## Incremental Cache and engine runs -/

/-- A cache entry: the file's path, the content signature it was scanned
at, and the candidates extracted from it. -/
structure CacheEntry where
  path : String
  sig : String
  cands : List String
deriving DecidableEq, Repr

/-- The persisted incremental cache: a version tag plus per-file entries. -/
structure Cache where
  version : Nat
  entries : List CacheEntry
deriving DecidableEq, Repr

/-- Current cache format version. -/
def cacheVersion : Nat := 1

/-- The empty (cold) cache. -/
def emptyCache : Cache :=
  ⟨cacheVersion, []⟩

/-- First cache entry recorded for a path. -/
def lookupEntry (es : List CacheEntry) (p : String) : Option CacheEntry :=
  es.find? (fun e => e.path = p)

/-- Non-fatal diagnostics accumulated during a run. -/
inductive Diag where
  | scanWarning (path : String)
  | candidateDropped (cand : String)
  | cacheInvalid
deriving DecidableEq, Repr

/-- The fatal error class: malformed theme/token, detected before any
scan. -/
inductive ConfigError where
  | configError (msg : String)
deriving DecidableEq, Repr

/-- Result of one engine run: output text, refreshed cache, the paths that
were re-tokenized, and accumulated diagnostics. -/
structure RunResult where
  output : String
  cache : Cache
  retok : List String
  diags : List Diag
deriving DecidableEq, Repr

/-- Per-file processing record: path, content signature, candidate list
used, and whether the file was tokenized afresh this run. -/
structure Processed where
  path : String
  sig : String
  cands : List String
  fresh : Bool
deriving DecidableEq, Repr

/-- Modelled from the spec (Incremental Cache): reuse a cache entry whose
signature matches the file's current content; otherwise re-tokenize. -/
def processFile (es : List CacheEntry) (f : String × String) : Processed :=
  match lookupEntry es f.1 with
  | some e => if e.sig = f.2 then ⟨f.1, f.2, e.cands, false⟩ else ⟨f.1, f.2, extract f.2, true⟩
  | none => ⟨f.1, f.2, extract f.2, true⟩

/-- The scanned files that could be read, as (path, content) pairs. -/
def readableFiles (cfg : Config) (tree : List FileEntry) : List (String × String) :=
  (scanFiles cfg.content tree).filterMap (fun f => f.content.map (fun s => (f.path, s)))

/-- Modelled from the spec: the full engine run below configuration
validation — scan, cache-aware extraction, candidate dedup, resolution,
emission, cache refresh and diagnostics. A cache whose version tag
mismatches forces a full rebuild. -/
def runCore (cache : Cache) (cfg : Config) (tree : List FileEntry) : RunResult :=
  let theme := resolveTheme baseTheme cfg.themeExtend
  let es := if cache.version = cacheVersion then cache.entries else []
  let scanned := scanFiles cfg.content tree
  let perFile := (readableFiles cfg tree).map (processFile es)
  let cands := (perFile.flatMap (·.cands)).dedup
  let rules := cands.filterMap (resolveCandidate theme cfg.darkMode)
  { output := emit rules
    cache := ⟨cacheVersion, perFile.map (fun x => ⟨x.path, x.sig, x.cands⟩)⟩
    retok := (perFile.filter (·.fresh)).map (·.path)
    diags :=
      (scanned.filter (fun f => f.content.isNone)).map (fun f => .scanWarning f.path)
        ++ (cands.filter
              (fun c => (resolveCandidate theme cfg.darkMode c).isNone)).map .candidateDropped
        ++ (if cache.version = cacheVersion then [] else [.cacheInvalid]) }

/-- Modelled from the spec (engine entry point): reject a malformed theme
with `ConfigError` before any scan; otherwise run the core engine, which
only degrades gracefully. -/
def engineRun (cache : Cache) (cfg : Config) (tree : List FileEntry) :
    Except ConfigError RunResult :=
  if validateTheme (resolveTheme baseTheme cfg.themeExtend) then
    .ok (runCore cache cfg tree)
  else
    .error (.configError "malformed theme token")

/-! ## Helper lemmas -/

theorem find?_filter_of_imp {α : Type} {p q : α → Bool}
    (l : List α) (h : ∀ x ∈ l, p x = true → q x = true) :
    (l.filter q).find? p = l.find? p := by
  induction l with
  | nil => rfl
  | cons a l ih =>
    have ih' := ih (fun x hx => h x (List.mem_cons_of_mem a hx))
    by_cases hq : q a = true
    · rw [List.filter_cons_of_pos hq]
      by_cases hp : p a = true
      · rw [List.find?_cons_of_pos _ hp, List.find?_cons_of_pos _ hp]
      · rw [List.find?_cons_of_neg _ hp, List.find?_cons_of_neg _ hp]
        exact ih'
    · have hp : ¬p a = true := fun hc => hq (h a (List.mem_cons_self a l) hc)
      rw [List.filter_cons_of_neg (by simpa using hq), List.find?_cons_of_neg _ hp]
      exact ih'

/-! ## Claim theorems -/

/-- C2: for every base theme and extension, the resolved `ThemeTable` maps
each key present in the extension to the extension's value, and every
other key to the base theme's unmodified value; no base entry outside the
extension's key set is removed or altered. -/
theorem theme_merge_correct (base ext : ThemeTable) (k : String × String) :
    (∀ v, themeLookup ext k = some v →
      themeLookup (resolveTheme base ext) k = some v) ∧
    (themeLookup ext k = none →
      themeLookup (resolveTheme base ext) k = themeLookup base k) := by
  constructor
  · intro v hv
    unfold themeLookup at hv ⊢
    unfold resolveTheme
    rw [List.find?_append]
    cases hfind : ext.find? (fun e => e.1 = k) with
    | none => rw [hfind] at hv; simp at hv
    | some e =>
      rw [hfind] at hv
      simp only [Option.map_some'] at hv
      simp [hfind, hv.symm]
  · intro hnone
    unfold themeLookup at hnone ⊢
    unfold resolveTheme
    rw [List.find?_append]
    have hextnone : ext.find? (fun e => e.1 = k) = none := by
      cases hfind : ext.find? (fun e => e.1 = k) with
      | none => rfl
      | some e => rw [hfind] at hnone; simp at hnone
    rw [hextnone, Option.none_or]
    congr 1
    apply find?_filter_of_imp
    intro x _ hx
    simp only [decide_eq_true_eq] at hx
    rw [List.find?_eq_none] at hextnone
    simp only [Bool.not_eq_true', List.any_eq_false, decide_eq_true_eq]
    intro y hymem hy
    have := hextnone y hymem
    simp only [decide_eq_true_eq] at this
    exact this (hy.trans hx)

/-- Witness for C2: overriding `spacing.4` with `2rem` yields `2rem` for
that key and leaves the untouched `spacing.2` base entry visible. -/
theorem theme_merge_correct_witness :
    themeLookup (resolveTheme baseTheme [(("spacing", "4"), "2rem")]) ("spacing", "4") =
      some "2rem" ∧
    themeLookup (resolveTheme baseTheme [(("spacing", "4"), "2rem")]) ("spacing", "2") =
      themeLookup baseTheme ("spacing", "2") :=
  ⟨(theme_merge_correct baseTheme [(("spacing", "4"), "2rem")] ("spacing", "4")).1
      "2rem" (by decide),
   (theme_merge_correct baseTheme [(("spacing", "4"), "2rem")] ("spacing", "2")).2
      (by decide)⟩

/-- C10: the empty extension (as in this config's `theme.extend: {}`) is a
right identity of the merge: the resolved table equals the base theme, and
every utility resolves against unmodified base design tokens. -/
theorem theme_empty_extension_identity (base : ThemeTable) :
    resolveTheme base [] = base ∧
    (∀ b, lookupUtility (resolveTheme base []) b = lookupUtility base b) ∧
    resolveTheme base repoConfig.themeExtend = base := by
  have h : resolveTheme base [] = base := by
    unfold resolveTheme
    simp
  exact ⟨h, fun b => by rw [h], h⟩

/-- C1: under the class-based dark-mode strategy set by this config, the
chain `dark:hover:` nests the hover pseudo-class inside the dark
ancestor-marker rewrite (leftmost prefix outermost), and swapping the two
prefixes in the candidate string swaps the nesting order. -/
theorem variant_nesting_dark_hover :
    repoConfig.darkMode = .byClass ∧
    (∀ u : String, applyChain repoConfig.darkMode ["dark", "hover"] (.base u) =
        some (.ancestor "dark" (.pseudo (.base u) "hover"))) ∧
    (∀ u : String, applyChain repoConfig.darkMode ["hover", "dark"] (.base u) =
        some (.pseudo (.ancestor "dark" (.base u)) "hover")) ∧
    parseCandidate "dark:hover:text-red-500" = (["dark", "hover"], "text-red-500") ∧
    parseCandidate "hover:dark:text-red-500" = (["hover", "dark"], "text-red-500") ∧
    resolveSel repoConfig.darkMode "dark:hover:text-red-500" =
      some (.ancestor "dark"
        (.pseudo (.base (escapeClass "dark:hover:text-red-500")) "hover")) ∧
    resolveSel repoConfig.darkMode "hover:dark:text-red-500" =
      some (.pseudo
        (.ancestor "dark" (.base (escapeClass "hover:dark:text-red-500"))) "hover") :=
  ⟨rfl, fun _ => rfl, fun _ => rfl, by decide, by decide, by decide, by decide⟩

theorem tokenize_tokens_spec :
    ∀ (cs acc : List Char), acc.all allowedChar = true →
      ∀ c ∈ tokenize cs acc, c ≠ "" ∧ c.toList.all allowedChar = true := by
  intro cs
  induction cs with
  | nil =>
    intro acc hacc c hc
    unfold tokenize at hc
    by_cases he : acc.isEmpty = true
    · simp [he] at hc
    · simp only [he, Bool.false_eq_true, if_false, List.mem_singleton] at hc
      subst hc
      constructor
      · intro hcon
        have : acc.reverse = [] := congrArg String.toList hcon
        rw [List.reverse_eq_nil_iff] at this
        rw [this] at he
        exact he rfl
      · simpa using hacc
  | cons c cs ih =>
    intro acc hacc t ht
    unfold tokenize at ht
    by_cases hc : allowedChar c = true
    · simp only [hc, if_true] at ht
      exact ih (c :: acc) (by simp [hc, hacc]) t ht
    · simp only [hc, Bool.false_eq_true, if_false] at ht
      by_cases he : acc.isEmpty = true
      · simp only [he, if_true] at ht
        exact ih [] rfl t ht
      · simp only [he, Bool.false_eq_true, if_false, List.mem_cons] at ht
        rcases ht with rfl | ht
        · constructor
          · intro hcon
            have : acc.reverse = [] := congrArg String.toList hcon
            rw [List.reverse_eq_nil_iff] at this
            rw [this] at he
            exact he rfl
          · simpa using hacc
        · exact ih [] rfl t ht

theorem tokenize_all_separators :
    ∀ cs : List Char, cs.all (fun c => !allowedChar c) = true → tokenize cs [] = [] := by
  intro cs
  induction cs with
  | nil => intro _; rfl
  | cons c cs ih =>
    intro h
    simp only [List.all_cons, Bool.and_eq_true, Bool.not_eq_true'] at h
    unfold tokenize
    simp only [h.1, Bool.false_eq_true, if_false, List.isEmpty_nil, if_true]
    exact ih (by simp only [List.all_eq_true] at h ⊢; exact fun x hx => h.2 x hx)

/-- C7: the Candidate Extractor is a total pure function of the byte
content: it is defined for every input, never depends on file identity,
every candidate it yields is a nonempty run over the allowed alphabet, and
a span containing only separator characters yields no candidate at all. -/
theorem extractor_total_pure :
    (∀ (p₁ p₂ : String) (bytes : String),
        extractFile (p₁, bytes) = extractFile (p₂, bytes)) ∧
    (∀ bytes : String, ∀ c ∈ extract bytes,
        c ≠ "" ∧ c.toList.all allowedChar = true) ∧
    (∀ bytes : String,
        bytes.toList.all (fun c => !allowedChar c) = true → extract bytes = []) :=
  ⟨fun _ _ _ => rfl,
   fun bytes c hc => tokenize_tokens_spec bytes.toList [] rfl c hc,
   fun bytes h => tokenize_all_separators bytes.toList h⟩

/-- Witness for C7: extracting `<div class="p-4">` yields the nonempty
all-allowed candidate `p-4`, and a pure-separator span yields nothing. -/
theorem extractor_total_pure_witness :
    ("p-4" ≠ "" ∧ "p-4".toList.all allowedChar = true) ∧ extract "<< \x22 >>" = [] :=
  ⟨extractor_total_pure.2.1 "<div class=\x22p-4\x22>" "p-4" (by decide),
   extractor_total_pure.2.2 "<< \x22 >>" (by decide)⟩

/-- C9: scanning a pattern list containing duplicates produces the same
scanned file set, the same engine run (same work and output), as the
deduplicated list; scanned paths are tokenized at most once — a working
tree without duplicate paths yields a scanned set without duplicates. -/
theorem scanner_union_dedup (pats : List String) (cache : Cache)
    (strategy : DarkModeStrategy) (ext : ThemeTable) (tree : List FileEntry) :
    scanFiles pats tree = scanFiles pats.dedup tree ∧
    runCore cache ⟨pats, strategy, ext⟩ tree =
      runCore cache ⟨pats.dedup, strategy, ext⟩ tree ∧
    ((tree.map (·.path)).Nodup → ((scanFiles pats tree).map (·.path)).Nodup) := by
  have hscan : scanFiles pats tree = scanFiles pats.dedup tree := by
    unfold scanFiles
    apply List.filter_congr
    intro f _
    rw [Bool.eq_iff_iff, List.any_eq_true, List.any_eq_true]
    constructor
    · rintro ⟨p, hp, hm⟩
      exact ⟨p, List.mem_dedup.mpr hp, hm⟩
    · rintro ⟨p, hp, hm⟩
      exact ⟨p, List.mem_dedup.mp hp, hm⟩
  refine ⟨hscan, ?_, ?_⟩
  · unfold runCore readableFiles
    rw [hscan]
  · intro hnodup
    exact List.Nodup.sublist (List.Sublist.map _ (List.filter_sublist tree)) hnodup

/-- Witness for C9: a duplicate-free working tree scanned with a
duplicated pattern list yields duplicate-free scanned paths. -/
theorem scanner_union_dedup_witness :
    ((scanFiles ["*.js", "*.js"]
        [⟨"a.js", some "p-4"⟩, ⟨"b.css", some "x"⟩]).map (·.path)).Nodup :=
  (scanner_union_dedup ["*.js", "*.js"] emptyCache .byClass []
      [⟨"a.js", some "p-4"⟩, ⟨"b.css", some "x"⟩]).2.2 (by decide)

/-- The rule list an engine run feeds to the emitter: per-file candidate
lists (cache-aware), concatenated, deduplicated, resolved. -/
def runRules (cache : Cache) (cfg : Config) (tree : List FileEntry) : List Rule :=
  ((((readableFiles cfg tree).map
        (processFile (if cache.version = cacheVersion then cache.entries else []))).flatMap
      (·.cands)).dedup).filterMap
    (resolveCandidate (resolveTheme baseTheme cfg.themeExtend) cfg.darkMode)

theorem runCore_output_def (cache : Cache) (cfg : Config) (tree : List FileEntry) :
    (runCore cache cfg tree).output = emit (runRules cache cfg tree) :=
  rfl

/-- C8: for every rule set, the emitted rule list carries no two rules
with an identical selector+declaration pair, is sorted by the stable sort
key (utility category, variant-chain-length tier, candidate lexical
order), and the emitted text is identical for any discovery order of the
same rules. -/
theorem emitter_dedup_sorted_deterministic (rs rs' : List Rule) :
    (emittedRules rs).Pairwise (fun a b => pairOf a ≠ pairOf b) ∧
    (emittedRules rs).Sorted (fun a b => specSortKey a ≤ specSortKey b) ∧
    (rs.Perm rs' → emit rs = emit rs') :=
  ⟨emittedRules_pairwise rs, emittedRules_sorted rs, fun h => emit_eq_of_perm h⟩

/-- Witness for C8: two concrete rules inserted in either order emit the
same text. -/
theorem emitter_dedup_sorted_deterministic_witness :
    emit [⟨0, 0, "p-4", ".p-4", "padding: 1rem"⟩,
          ⟨1, 0, "text-white", ".text-white", "color: white"⟩] =
      emit [⟨1, 0, "text-white", ".text-white", "color: white"⟩,
            ⟨0, 0, "p-4", ".p-4", "padding: 1rem"⟩] :=
  (emitter_dedup_sorted_deterministic
      [⟨0, 0, "p-4", ".p-4", "padding: 1rem"⟩,
       ⟨1, 0, "text-white", ".text-white", "color: white"⟩]
      [⟨1, 0, "text-white", ".text-white", "color: white"⟩,
       ⟨0, 0, "p-4", ".p-4", "padding: 1rem"⟩]).2.2
    (List.Perm.swap _ _ _)

/-- C3: visiting the same files (same paths, same bytes) in any order
leaves the final emitted stylesheet text byte-identical: output depends
only on the multiset of scanned files, never on visit or merge order. -/
theorem scan_order_independent (cache : Cache) (cfg : Config)
    {tree₁ tree₂ : List FileEntry} (h : tree₁.Perm tree₂) :
    (runCore cache cfg tree₁).output = (runCore cache cfg tree₂).output := by
  have h1 : (readableFiles cfg tree₁).Perm (readableFiles cfg tree₂) := by
    unfold readableFiles scanFiles
    exact List.Perm.filterMap _ (List.Perm.filter _ h)
  have h2 : (runRules cache cfg tree₁).Perm (runRules cache cfg tree₂) := by
    unfold runRules
    exact List.Perm.filterMap _
      (List.Perm.dedup (List.Perm.flatMap_right _ (List.Perm.map _ h1)))
  rw [runCore_output_def, runCore_output_def]
  exact emit_eq_of_perm h2

/-- Witness for C3: a concrete two-file tree visited in both orders
produces the same output text. -/
theorem scan_order_independent_witness :
    (runCore emptyCache ⟨["*.js"], .byClass, []⟩
        [⟨"a.js", some "p-4"⟩, ⟨"b.js", some "dark:text-white"⟩]).output =
      (runCore emptyCache ⟨["*.js"], .byClass, []⟩
        [⟨"b.js", some "dark:text-white"⟩, ⟨"a.js", some "p-4"⟩]).output :=
  scan_order_independent emptyCache ⟨["*.js"], .byClass, []⟩ (List.Perm.swap _ _ _)

/-! ## Incremental cache invariants -/

/-- A cache entry list is well formed when every entry's candidate list is
exactly what extraction yields on its recorded signature. -/
def WFEntries (es : List CacheEntry) : Prop :=
  ∀ e ∈ es, e.cands = extract e.sig

/-- The entries an engine run actually consults: none when the version tag
mismatches. -/
def usedEntries (cache : Cache) : List CacheEntry :=
  if cache.version = cacheVersion then cache.entries else []

theorem processFile_path (es : List CacheEntry) (f : String × String) :
    (processFile es f).path = f.1 := by
  unfold processFile
  cases lookupEntry es f.1 with
  | none => rfl
  | some e =>
    by_cases h : e.sig = f.2 <;> simp [h]

theorem processFile_sig (es : List CacheEntry) (f : String × String) :
    (processFile es f).sig = f.2 := by
  unfold processFile
  cases lookupEntry es f.1 with
  | none => rfl
  | some e =>
    by_cases h : e.sig = f.2 <;> simp [h]

theorem processFile_cands_of_wf {es : List CacheEntry} (h : WFEntries es)
    (f : String × String) : (processFile es f).cands = extract f.2 := by
  unfold processFile
  cases hfind : lookupEntry es f.1 with
  | none => rfl
  | some e =>
    by_cases hsig : e.sig = f.2
    · simp only [hsig, if_true]
      rw [h e (List.mem_of_find?_eq_some hfind), hsig]
    · simp [hsig]

theorem processFile_fresh (es : List CacheEntry) (f : String × String) :
    (processFile es f).fresh = !((lookupEntry es f.1).map (·.sig) == some f.2) := by
  unfold processFile
  cases lookupEntry es f.1 with
  | none => rfl
  | some e =>
    by_cases h : e.sig = f.2
    · simp [h]
    · simp [h]

theorem runCore_cache_def (cache : Cache) (cfg : Config) (tree : List FileEntry) :
    (runCore cache cfg tree).cache =
      ⟨cacheVersion,
        ((readableFiles cfg tree).map (processFile (usedEntries cache))).map
          (fun x => ⟨x.path, x.sig, x.cands⟩)⟩ :=
  rfl

theorem runCore_retok_def (cache : Cache) (cfg : Config) (tree : List FileEntry) :
    (runCore cache cfg tree).retok =
      (((readableFiles cfg tree).map (processFile (usedEntries cache))).filter
        (·.fresh)).map (·.path) :=
  rfl

theorem wf_runCore_entries {cache : Cache} (h : WFEntries (usedEntries cache))
    (cfg : Config) (tree : List FileEntry) :
    WFEntries (runCore cache cfg tree).cache.entries := by
  rw [runCore_cache_def]
  intro e he
  rw [List.map_map] at he
  obtain ⟨f, _, rfl⟩ := List.mem_map.mp he
  simp only [Function.comp_apply]
  rw [processFile_cands_of_wf h f, processFile_sig]

theorem runRules_eq_full {cache : Cache} (h : WFEntries (usedEntries cache))
    (cfg : Config) (tree : List FileEntry) :
    runRules cache cfg tree = runRules emptyCache cfg tree := by
  unfold runRules
  rw [List.flatMap_map, List.flatMap_map]
  have h1 : (fun f => (processFile (usedEntries cache) f).cands) =
      fun f : String × String => extract f.2 :=
    funext (fun f => processFile_cands_of_wf h f)
  have h2 : (fun f => (processFile (usedEntries emptyCache) f).cands) =
      fun f : String × String => extract f.2 :=
    funext (fun f => processFile_cands_of_wf (fun e he => by cases he) f)
  show ((((readableFiles cfg tree)).flatMap
        (fun f => (processFile (usedEntries cache) f).cands)).dedup).filterMap _ =
      ((((readableFiles cfg tree)).flatMap
        (fun f => (processFile (usedEntries emptyCache) f).cands)).dedup).filterMap _
  rw [h1, h2]

theorem runCore_output_eq_full {cache : Cache} (h : WFEntries (usedEntries cache))
    (cfg : Config) (tree : List FileEntry) :
    (runCore cache cfg tree).output = (runCore emptyCache cfg tree).output := by
  rw [runCore_output_def, runCore_output_def, runRules_eq_full h]

/-- C4: running the engine twice over an unchanged file set and
configuration produces byte-identical output — the second, cache-hitting
run emits exactly the first run's text. -/
theorem engine_idempotent (cfg : Config) (tree : List FileEntry) :
    (runCore (runCore emptyCache cfg tree).cache cfg tree).output =
      (runCore emptyCache cfg tree).output := by
  apply runCore_output_eq_full
  have : usedEntries (runCore emptyCache cfg tree).cache =
      (runCore emptyCache cfg tree).cache.entries := rfl
  rw [this]
  exact wf_runCore_entries (fun e he => by cases he) cfg tree

/-- The content signature the refreshed cache of a run records for a
path: the content of the first scanned readable file at that path. -/
theorem sigLookup_runCore (cache : Cache) (cfg : Config) (tree : List FileEntry)
    (p : String) :
    (lookupEntry (runCore cache cfg tree).cache.entries p).map (·.sig) =
      ((readableFiles cfg tree).find? (fun g => g.1 = p)).map (·.2) := by
  rw [runCore_cache_def]
  show (lookupEntry (((readableFiles cfg tree).map (processFile (usedEntries cache))).map
      (fun x => ⟨x.path, x.sig, x.cands⟩)) p).map (·.sig) = _
  unfold lookupEntry
  rw [List.map_map, List.find?_map]
  have hpred : ((fun e : CacheEntry => decide (e.path = p)) ∘
      ((fun x : Processed => CacheEntry.mk x.path x.sig x.cands) ∘
        processFile (usedEntries cache))) =
      fun g : String × String => decide (g.1 = p) := by
    funext g
    simp only [Function.comp_apply]
    rw [decide_eq_decide, processFile_path]
  rw [hpred]
  cases hfind : (readableFiles cfg tree).find? (fun g : String × String => decide (g.1 = p)) with
  | none => rfl
  | some g =>
    simp only [Option.map_some', Function.comp_apply]
    rw [processFile_sig]

/-- C5: starting from the cache of a first run over `tree₁`, a second run
over `tree₂` emits exactly what a full rebuild over `tree₂` emits (reused
rules for unchanged files, re-resolved rules for changed files, stale
rules dropped), and re-tokenizes exactly the readable files whose content
differs from the first run's recorded signature for their path. -/
theorem incremental_run_correct (cfg : Config) (tree₁ tree₂ : List FileEntry) :
    (runCore (runCore emptyCache cfg tree₁).cache cfg tree₂).output =
      (runCore emptyCache cfg tree₂).output ∧
    (runCore (runCore emptyCache cfg tree₁).cache cfg tree₂).retok =
      ((readableFiles cfg tree₂).filter
        (fun f => !(((readableFiles cfg tree₁).find? (fun g => g.1 = f.1)).map (·.2) ==
          some f.2))).map (·.1) := by
  constructor
  · apply runCore_output_eq_full
    have : usedEntries (runCore emptyCache cfg tree₁).cache =
        (runCore emptyCache cfg tree₁).cache.entries := rfl
    rw [this]
    exact wf_runCore_entries (fun e he => by cases he) cfg tree₁
  · rw [runCore_retok_def, List.filter_map, List.map_map]
    have hused : usedEntries (runCore emptyCache cfg tree₁).cache =
        (runCore emptyCache cfg tree₁).cache.entries := rfl
    rw [hused]
    rw [List.filter_congr (q := fun f : String × String =>
        !(((readableFiles cfg tree₁).find? (fun g => g.1 = f.1)).map (·.2) == some f.2))
      (fun f _ => by
        simp only [Function.comp_apply]
        rw [processFile_fresh, sigLookup_runCore])]
    apply List.map_congr_left
    intro f _
    simp only [Function.comp_apply]
    rw [processFile_path]

/-- The deduplicated candidate list of an engine run. -/
def runCands (cache : Cache) (cfg : Config) (tree : List FileEntry) : List String :=
  (((readableFiles cfg tree).map
      (processFile (if cache.version = cacheVersion then cache.entries else []))).flatMap
    (·.cands)).dedup

theorem runCore_diags_def (cache : Cache) (cfg : Config) (tree : List FileEntry) :
    (runCore cache cfg tree).diags =
      ((scanFiles cfg.content tree).filter (fun f => f.content.isNone)).map
          (fun f => .scanWarning f.path)
        ++ (((runCands cache cfg tree).filter
              (fun c => (resolveCandidate (resolveTheme baseTheme cfg.themeExtend)
                cfg.darkMode c).isNone)).map .candidateDropped)
        ++ (if cache.version = cacheVersion then [] else [.cacheInvalid]) :=
  rfl

/-- C6: the engine hard-fails exactly on a malformed theme (`ConfigError`,
before any scan); unreadable files, unknown utilities, unknown variants,
invalid arbitrary values and cache version mismatch all degrade to
diagnostics beside a still-valid output, and `not-a-real-utility` yields
no rule while valid candidates in the same file still resolve. -/
theorem error_policy (cache : Cache) (cfg : Config) (tree : List FileEntry) :
    ((∃ e, engineRun cache cfg tree = .error e) ↔
      validateTheme (resolveTheme baseTheme cfg.themeExtend) = false) ∧
    (validateTheme (resolveTheme baseTheme cfg.themeExtend) = true →
      engineRun cache cfg tree = .ok (runCore cache cfg tree)) ∧
    (∀ f ∈ scanFiles cfg.content tree, f.content = none →
      Diag.scanWarning f.path ∈ (runCore cache cfg tree).diags) ∧
    (∀ c : Cache, c.version ≠ cacheVersion →
      (runCore c cfg tree).output = (runCore emptyCache cfg tree).output) ∧
    resolveCandidate baseTheme .byClass "not-a-real-utility" = none ∧
    resolveCandidate baseTheme .byClass "blah:p-4" = none ∧
    resolveCandidate baseTheme .byClass "p-[zz]" = none ∧
    resolveCandidate baseTheme .byClass "p-4" =
      some ⟨0, 0, "p-4", ".p-4", "padding: 1rem"⟩ := by
  refine ⟨?_, ?_, ?_, ?_, by decide, by decide, by decide, by decide⟩
  · by_cases hv : validateTheme (resolveTheme baseTheme cfg.themeExtend) = true
    · simp [engineRun, hv]
    · simp only [Bool.not_eq_true] at hv
      simp only [engineRun, hv, Bool.false_eq_true, if_false]
      exact ⟨fun _ => trivial, fun _ => ⟨_, rfl⟩⟩
  · intro hv
    simp [engineRun, hv]
  · intro f hf hnone
    rw [runCore_diags_def, List.append_assoc]
    apply List.mem_append_left
    exact List.mem_map.mpr ⟨f, List.mem_filter.mpr ⟨hf, by simp [hnone]⟩, rfl⟩
  · intro c hc
    apply runCore_output_eq_full
    have : usedEntries c = [] := by
      unfold usedEntries
      rw [if_neg hc]
    rw [this]
    intro e he
    cases he

/-- Witness for C6: with a valid theme, a tree holding an unreadable file
and a mismatched-version cache, every graceful-degradation conclusion of
the policy applies. -/
theorem error_policy_witness :
    engineRun emptyCache ⟨["*.js"], .byClass, []⟩ [⟨"d.js", none⟩, ⟨"a.js", some "p-4"⟩] =
      .ok (runCore emptyCache ⟨["*.js"], .byClass, []⟩
        [⟨"d.js", none⟩, ⟨"a.js", some "p-4"⟩]) ∧
    Diag.scanWarning "d.js" ∈
      (runCore emptyCache ⟨["*.js"], .byClass, []⟩
        [⟨"d.js", none⟩, ⟨"a.js", some "p-4"⟩]).diags ∧
    (runCore ⟨2, [⟨"a.js", "stale", ["junk"]⟩]⟩ ⟨["*.js"], .byClass, []⟩
        [⟨"d.js", none⟩, ⟨"a.js", some "p-4"⟩]).output =
      (runCore emptyCache ⟨["*.js"], .byClass, []⟩
        [⟨"d.js", none⟩, ⟨"a.js", some "p-4"⟩]).output :=
  ⟨(error_policy emptyCache ⟨["*.js"], .byClass, []⟩
      [⟨"d.js", none⟩, ⟨"a.js", some "p-4"⟩]).2.1 (by decide),
   (error_policy emptyCache ⟨["*.js"], .byClass, []⟩
      [⟨"d.js", none⟩, ⟨"a.js", some "p-4"⟩]).2.2.1 ⟨"d.js", none⟩ (by decide) rfl,
   (error_policy emptyCache ⟨["*.js"], .byClass, []⟩
      [⟨"d.js", none⟩, ⟨"a.js", some "p-4"⟩]).2.2.2.1
     ⟨2, [⟨"a.js", "stale", ["junk"]⟩]⟩ (by decide)⟩

end Nogistocks
